import Mathlib

/-!
Shallow embedding of the string-vibration quantum-circuit program
(`src/main.py`) and proofs of its specified properties.

The program builds a circuit in five stages (Hadamard superposition,
nearest-neighbour CNOT coupling, fixed RZ phase rotations, cross-dimension
CZ interference, and measurement), runs it on a backend, and summarises
the resulting outcome distribution.

Modelling choices:
* Gate angles are represented exactly as rational multiples of π, so the
  `np.pi / 4` phase parameter is the rational `1 / 4`.
* A Python dict of outcome counts is an insertion-ordered association list
  `List (String × Nat)`.
* Python exceptions become `Except` error values: `max` over an empty
  sequence raises `ValueError` (modelled by `emptyDistribution`), and
  division by a zero total raises `ZeroDivisionError` (`divisionByZero`).
* The qiskit backend is an opaque collaborator, modelled as a function
  parameter of `simulate_string_theory`.
-/

namespace StringSim

/-- One gate operation of the circuit, as appended by
`create_string_vibration_circuit`: Hadamard, controlled-NOT, RZ phase
rotation (angle stored as a rational multiple of π), controlled-Z, or a
measurement of qubit `q` into classical slot `c`. -/
inductive Gate where
  | h (q : Nat)
  | cx (control target : Nat)
  | rz (theta : ℚ) (q : Nat)
  | cz (control target : Nat)
  | measure (q : Nat) (c : Nat)
deriving DecidableEq

/-- A built circuit: register sizes and the ordered list of operations. -/
structure CircuitSpec where
  numQubits : Nat
  numClbits : Nat
  ops : List Gate
deriving DecidableEq

/-- The qubit-index mapping used throughout `create_string_vibration_circuit`:
`site + dimension * num_qubits`. -/
def qubit_index (dim site num_qubits : Nat) : Nat :=
  site + dim * num_qubits

/-- Superposition stage: `for i in range(num_qubits * num_dimensions): circuit.h(i)`. -/
def superpositionOps (num_qubits num_dimensions : Nat) : List Gate :=
  (List.range (num_qubits * num_dimensions)).map Gate.h

/-- Coupling stage:
`for dim in range(num_dimensions): for i in range(num_qubits - 1): circuit.cx(i + dim*num_qubits, (i+1) + dim*num_qubits)`. -/
def couplingOps (num_qubits num_dimensions : Nat) : List Gate :=
  (List.range num_dimensions).flatMap fun dim =>
    (List.range (num_qubits - 1)).map fun i =>
      Gate.cx (i + dim * num_qubits) ((i + 1) + dim * num_qubits)

/-- Phase stage: `for i in range(num_qubits * num_dimensions): circuit.rz(np.pi/4, i)`. -/
def phaseOps (num_qubits num_dimensions : Nat) : List Gate :=
  (List.range (num_qubits * num_dimensions)).map fun i => Gate.rz (1 / 4) i

/-- Interference stage:
`if num_dimensions > 1: for i in range(num_qubits): for dim1 in range(num_dimensions): for dim2 in range(dim1+1, num_dimensions): circuit.cz(i + dim1*num_qubits, i + dim2*num_qubits)`. -/
def interferenceOps (num_qubits num_dimensions : Nat) : List Gate :=
  if num_dimensions > 1 then
    (List.range num_qubits).flatMap fun i =>
      (List.range num_dimensions).flatMap fun dim1 =>
        (List.range' (dim1 + 1) (num_dimensions - (dim1 + 1))).map fun dim2 =>
          Gate.cz (i + dim1 * num_qubits) (i + dim2 * num_qubits)
  else []

/-- Measurement stage: `circuit.measure(qr, cr)` measures every qubit `i`
into the classical slot with the same index `i`. -/
def measurementOps (num_qubits num_dimensions : Nat) : List Gate :=
  (List.range (num_qubits * num_dimensions)).map fun i => Gate.measure i i

/-- `create_string_vibration_circuit(num_qubits, num_dimensions)` from
`src/main.py`: registers of size `num_qubits * num_dimensions` and the five
stages appended in order. -/
def create_string_vibration_circuit (num_qubits num_dimensions : Nat) : CircuitSpec :=
  ⟨num_qubits * num_dimensions, num_qubits * num_dimensions,
    superpositionOps num_qubits num_dimensions ++
    couplingOps num_qubits num_dimensions ++
    phaseOps num_qubits num_dimensions ++
    interferenceOps num_qubits num_dimensions ++
    measurementOps num_qubits num_dimensions⟩

/-- `simulate_string_theory()` from `src/main.py`, with the qiskit backend
(`execute` on the qasm simulator followed by `get_counts`) abstracted as the
function argument: it builds the circuit with `num_qubits=4, num_dimensions=2`
and requests `shots=1000`. -/
def simulate_string_theory (run : CircuitSpec → Nat → List (String × Nat)) :
    List (String × Nat) :=
  run (create_string_vibration_circuit 4 2) 1000

/-- The analysis dict returned by `analyze_results`. -/
structure Analysis where
  total_measurements : Nat
  unique_states : Nat
  most_common_state : String
  highest_probability : ℚ
deriving DecidableEq

/-- Exceptions `analyze_results` can raise: `ValueError` from `max` on an
empty sequence, `ZeroDivisionError` from a zero total. -/
inductive AnalyzeError where
  | emptyDistribution
  | divisionByZero
deriving DecidableEq

/-- Python `max(items, key=lambda x: x[1])`: the first item with maximal
second component, `none` on an empty list (Python raises `ValueError`). -/
def maxByValue : List (String × Nat) → Option (String × Nat)
  | [] => none
  | x :: xs => some (xs.foldl (fun acc y => if acc.2 < y.2 then y else acc) x)

/-- Python `max(counts.values())` (the call sites guarantee nonemptiness,
where this equals the fold below). -/
def maxValue (counts : List (String × Nat)) : Nat :=
  (counts.map Prod.snd).foldr max 0

/-- `analyze_results(counts)` from `src/main.py`. -/
def analyze_results (counts : List (String × Nat)) : Except AnalyzeError Analysis :=
  let total_shots := (counts.map Prod.snd).sum
  match maxByValue counts with
  | none => Except.error AnalyzeError.emptyDistribution
  | some m =>
    if total_shots = 0 then Except.error AnalyzeError.divisionByZero
    else Except.ok ⟨total_shots, counts.length, m.1,
      (maxValue counts : ℚ) / (total_shots : ℚ)⟩

/-- Is the gate a Hadamard? -/
def Gate.isH : Gate → Bool
  | .h _ => true
  | _ => false

/-- Is the gate a controlled-NOT? -/
def Gate.isCX : Gate → Bool
  | .cx _ _ => true
  | _ => false

/-- Is the gate an RZ phase rotation? -/
def Gate.isRZ : Gate → Bool
  | .rz _ _ => true
  | _ => false

/-- Is the gate a controlled-Z? -/
def Gate.isCZ : Gate → Bool
  | .cz _ _ => true
  | _ => false

/-- Is the gate a measurement? -/
def Gate.isMeasure : Gate → Bool
  | .measure _ _ => true
  | _ => false

/-- First qubit operand of a gate (the control, for two-qubit gates). -/
def Gate.fstQubit : Gate → Nat
  | .h q => q
  | .cx c _ => c
  | .rz _ q => q
  | .cz c _ => c
  | .measure q _ => q

/-- The stage a gate kind belongs to, in the order the builder appends them. -/
def stageRank : Gate → Nat
  | .h _ => 0
  | .cx _ _ => 1
  | .rz _ _ => 2
  | .cz _ _ => 3
  | .measure _ _ => 4

/-- The controlled-NOT operations of a circuit, in order. -/
def cxOps (c : CircuitSpec) : List Gate :=
  c.ops.filter Gate.isCX

/-- The controlled-Z operations of a circuit, in order. -/
def czOps (c : CircuitSpec) : List Gate :=
  c.ops.filter Gate.isCZ

/-- The RZ phase-rotation operations of a circuit, in order. -/
def rzOps (c : CircuitSpec) : List Gate :=
  c.ops.filter Gate.isRZ

/-- The measurement operations of a circuit, in order. -/
def measureOps (c : CircuitSpec) : List Gate :=
  c.ops.filter Gate.isMeasure

/-- Sort key of a CZ gate for circuit parameters `(num_qubits, num_dimensions)`:
the lexicographic rank of the triple (site, first dimension, second dimension)
it acts on, recovered from its operand indices. -/
def czKey (num_qubits num_dimensions : Nat) : Gate → Nat
  | .cz c t =>
    (c % num_qubits) * num_dimensions * num_dimensions +
      (c / num_qubits) * num_dimensions + t / num_qubits
  | _ => 0

/-! ## General helper lemmas -/

/-- A list is pairwise related when the relation holds between any two members. -/
theorem pairwise_of_forall_mem {α : Type} {R : α → α → Prop} {l : List α}
    (h : ∀ a ∈ l, ∀ b ∈ l, R a b) : l.Pairwise R := by
  induction l with
  | nil => exact List.Pairwise.nil
  | cons x xs ih =>
    exact List.Pairwise.cons (fun b hb => h x (by simp) b (by simp [hb]))
      (ih fun a ha b hb => h a (by simp [ha]) b (by simp [hb]))

/-- A strictly `Nat`-keyed pairwise list has no duplicates. -/
theorem nodup_of_pairwise_key {α : Type} [DecidableEq α] {k : α → Nat} {l : List α}
    (h : l.Pairwise fun a b => k a < k b) : l.Nodup :=
  h.imp fun {a b} hk he => by subst he; exact absurd hk (lt_irrefl _)

/-- Length of a `flatMap` as the sum of the lengths of the pieces. -/
theorem length_flatMap_eq {α β : Type} (l : List α) (f : α → List β) :
    (l.flatMap f).length = (l.map fun a => (f a).length).sum := by
  rw [List.flatMap_def, List.length_flatten, List.map_map]
  rfl

/-- Summing a pointwise-successor function adds the length. -/
theorem sum_map_succ_of {l : List Nat} {f g : Nat → Nat}
    (h : ∀ a ∈ l, f a = g a + 1) :
    (l.map f).sum = (l.map g).sum + l.length := by
  induction l with
  | nil => simp
  | cons x xs ih =>
    have hx := h x (by simp)
    have ih' := ih fun a ha => h a (by simp [ha])
    simp only [List.map_cons, List.sum_cons, List.length_cons, hx, ih']
    omega

/-- The inner-loop count of the interference stage:
`Σ_{k < n} (n - (k+1)) = C(n, 2)`. -/
theorem sum_range_sub (n : Nat) :
    ((List.range n).map fun k => n - (k + 1)).sum = Nat.choose n 2 := by
  induction n with
  | zero => simp
  | succ m ih =>
    have hfun : ((List.range (m + 1)).map fun k => m + 1 - (k + 1)) =
        (List.range (m + 1)).map fun k => m - k := by
      exact List.map_congr_left fun a _ => by omega
    rw [hfun, List.range_succ, List.map_append, List.sum_append]
    have hstep : ((List.range m).map fun k => m - k).sum =
        ((List.range m).map fun k => m - (k + 1)).sum + m := by
      have := sum_map_succ_of (l := List.range m) (f := fun k => m - k)
        (g := fun k => m - (k + 1)) (fun a ha => by
          have h2 : a < m := List.mem_range.mp ha
          show m - a = m - (a + 1) + 1
          omega)
      simpa using this
    rw [hstep, ih]
    simp [Nat.choose_succ_succ, Nat.choose_one_right]
    omega

/-! ## Shape of the stages -/

/-- Every superposition-stage gate is a Hadamard. -/
theorem shape_superposition (nq nd : Nat) :
    ∀ g ∈ superpositionOps nq nd, ∃ q, g = Gate.h q := by
  intro g hg
  obtain ⟨q, _, rfl⟩ := List.mem_map.mp hg
  exact ⟨q, rfl⟩

/-- Every coupling-stage gate is a CNOT. -/
theorem shape_coupling (nq nd : Nat) :
    ∀ g ∈ couplingOps nq nd, ∃ c t, g = Gate.cx c t := by
  intro g hg
  obtain ⟨d, _, hg'⟩ := List.mem_flatMap.mp hg
  obtain ⟨i, _, rfl⟩ := List.mem_map.mp hg'
  exact ⟨_, _, rfl⟩

/-- Every phase-stage gate is an RZ rotation by the constant `1/4 · π`. -/
theorem shape_phase (nq nd : Nat) :
    ∀ g ∈ phaseOps nq nd, ∃ q, g = Gate.rz (1 / 4) q := by
  intro g hg
  obtain ⟨q, _, rfl⟩ := List.mem_map.mp hg
  exact ⟨q, rfl⟩

/-- Every interference-stage gate is a CZ. -/
theorem shape_interference (nq nd : Nat) :
    ∀ g ∈ interferenceOps nq nd, ∃ c t, g = Gate.cz c t := by
  intro g hg
  unfold interferenceOps at hg
  by_cases h : nd > 1
  · rw [if_pos h] at hg
    obtain ⟨i, _, hg'⟩ := List.mem_flatMap.mp hg
    obtain ⟨d1, _, hg''⟩ := List.mem_flatMap.mp hg'
    obtain ⟨d2, _, rfl⟩ := List.mem_map.mp hg''
    exact ⟨_, _, rfl⟩
  · rw [if_neg h] at hg
    exact absurd hg (List.not_mem_nil g)

/-- Every measurement-stage gate measures a qubit into the like-indexed slot. -/
theorem shape_measurement (nq nd : Nat) :
    ∀ g ∈ measurementOps nq nd, ∃ q, g = Gate.measure q q := by
  intro g hg
  obtain ⟨q, _, rfl⟩ := List.mem_map.mp hg
  exact ⟨q, rfl⟩

/-! ## Each gate-kind filter of the built circuit is its stage -/

/-- Filtering a list all of whose members fail the predicate gives `[]`. -/
theorem filter_none_of {p : Gate → Bool} {l : List Gate}
    (h : ∀ g ∈ l, p g = false) : l.filter p = [] :=
  List.filter_eq_nil_iff.mpr fun a ha hpa => by rw [h a ha] at hpa; exact absurd hpa (by simp)

/-- Filtering a list all of whose members satisfy the predicate keeps it. -/
theorem filter_all_of {p : Gate → Bool} {l : List Gate}
    (h : ∀ g ∈ l, p g = true) : l.filter p = l :=
  List.filter_eq_self.mpr h

/-- The CNOT operations of the built circuit are exactly the coupling stage. -/
theorem cxOps_create (nq nd : Nat) :
    cxOps (create_string_vibration_circuit nq nd) = couplingOps nq nd := by
  show (superpositionOps nq nd ++ couplingOps nq nd ++ phaseOps nq nd ++
      interferenceOps nq nd ++ measurementOps nq nd).filter Gate.isCX = couplingOps nq nd
  rw [List.filter_append, List.filter_append, List.filter_append, List.filter_append]
  rw [filter_none_of fun g hg => by obtain ⟨q, rfl⟩ := shape_superposition nq nd g hg; rfl]
  rw [filter_all_of fun g hg => by obtain ⟨c, t, rfl⟩ := shape_coupling nq nd g hg; rfl]
  rw [filter_none_of fun g hg => by obtain ⟨q, rfl⟩ := shape_phase nq nd g hg; rfl]
  rw [filter_none_of fun g hg => by obtain ⟨c, t, rfl⟩ := shape_interference nq nd g hg; rfl]
  rw [filter_none_of fun g hg => by obtain ⟨q, rfl⟩ := shape_measurement nq nd g hg; rfl]
  simp

/-- The CZ operations of the built circuit are exactly the interference stage. -/
theorem czOps_create (nq nd : Nat) :
    czOps (create_string_vibration_circuit nq nd) = interferenceOps nq nd := by
  show (superpositionOps nq nd ++ couplingOps nq nd ++ phaseOps nq nd ++
      interferenceOps nq nd ++ measurementOps nq nd).filter Gate.isCZ = interferenceOps nq nd
  rw [List.filter_append, List.filter_append, List.filter_append, List.filter_append]
  rw [filter_none_of fun g hg => by obtain ⟨q, rfl⟩ := shape_superposition nq nd g hg; rfl]
  rw [filter_none_of fun g hg => by obtain ⟨c, t, rfl⟩ := shape_coupling nq nd g hg; rfl]
  rw [filter_none_of fun g hg => by obtain ⟨q, rfl⟩ := shape_phase nq nd g hg; rfl]
  rw [filter_all_of fun g hg => by obtain ⟨c, t, rfl⟩ := shape_interference nq nd g hg; rfl]
  rw [filter_none_of fun g hg => by obtain ⟨q, rfl⟩ := shape_measurement nq nd g hg; rfl]
  simp

/-- The RZ operations of the built circuit are exactly the phase stage. -/
theorem rzOps_create (nq nd : Nat) :
    rzOps (create_string_vibration_circuit nq nd) = phaseOps nq nd := by
  show (superpositionOps nq nd ++ couplingOps nq nd ++ phaseOps nq nd ++
      interferenceOps nq nd ++ measurementOps nq nd).filter Gate.isRZ = phaseOps nq nd
  rw [List.filter_append, List.filter_append, List.filter_append, List.filter_append]
  rw [filter_none_of fun g hg => by obtain ⟨q, rfl⟩ := shape_superposition nq nd g hg; rfl]
  rw [filter_none_of fun g hg => by obtain ⟨c, t, rfl⟩ := shape_coupling nq nd g hg; rfl]
  rw [filter_all_of fun g hg => by obtain ⟨q, rfl⟩ := shape_phase nq nd g hg; rfl]
  rw [filter_none_of fun g hg => by obtain ⟨c, t, rfl⟩ := shape_interference nq nd g hg; rfl]
  rw [filter_none_of fun g hg => by obtain ⟨q, rfl⟩ := shape_measurement nq nd g hg; rfl]
  simp

/-- The measurement operations of the built circuit are exactly the
measurement stage. -/
theorem measureOps_create (nq nd : Nat) :
    measureOps (create_string_vibration_circuit nq nd) = measurementOps nq nd := by
  show (superpositionOps nq nd ++ couplingOps nq nd ++ phaseOps nq nd ++
      interferenceOps nq nd ++ measurementOps nq nd).filter Gate.isMeasure = measurementOps nq nd
  rw [List.filter_append, List.filter_append, List.filter_append, List.filter_append]
  rw [filter_none_of fun g hg => by obtain ⟨q, rfl⟩ := shape_superposition nq nd g hg; rfl]
  rw [filter_none_of fun g hg => by obtain ⟨c, t, rfl⟩ := shape_coupling nq nd g hg; rfl]
  rw [filter_none_of fun g hg => by obtain ⟨q, rfl⟩ := shape_phase nq nd g hg; rfl]
  rw [filter_none_of fun g hg => by obtain ⟨c, t, rfl⟩ := shape_interference nq nd g hg; rfl]
  rw [filter_all_of fun g hg => by obtain ⟨q, rfl⟩ := shape_measurement nq nd g hg; rfl]
  simp

/-! ## Membership characterisations and sort keys -/

/-- Membership in the coupling stage. -/
theorem mem_couplingOps {nq nd : Nat} {g : Gate} :
    g ∈ couplingOps nq nd ↔
      ∃ d, d < nd ∧ ∃ i, i < nq - 1 ∧ g = Gate.cx (i + d * nq) ((i + 1) + d * nq) := by
  unfold couplingOps
  constructor
  · intro hg
    obtain ⟨d, hd, hg'⟩ := List.mem_flatMap.mp hg
    obtain ⟨i, hi, rfl⟩ := List.mem_map.mp hg'
    exact ⟨d, List.mem_range.mp hd, i, List.mem_range.mp hi, rfl⟩
  · rintro ⟨d, hd, i, hi, rfl⟩
    exact List.mem_flatMap.mpr ⟨d, List.mem_range.mpr hd,
      List.mem_map.mpr ⟨i, List.mem_range.mpr hi, rfl⟩⟩

/-- Membership in the interference stage. -/
theorem mem_interferenceOps {nq nd : Nat} {g : Gate} :
    g ∈ interferenceOps nq nd ↔
      ∃ i, i < nq ∧ ∃ d1 d2, d1 < d2 ∧ d2 < nd ∧
        g = Gate.cz (i + d1 * nq) (i + d2 * nq) := by
  unfold interferenceOps
  by_cases h : nd > 1
  · rw [if_pos h]
    constructor
    · intro hg
      obtain ⟨i, hi, hg'⟩ := List.mem_flatMap.mp hg
      obtain ⟨d1, hd1, hg''⟩ := List.mem_flatMap.mp hg'
      obtain ⟨d2, hd2, rfl⟩ := List.mem_map.mp hg''
      obtain ⟨j, hj, rfl⟩ := List.mem_range'.mp hd2
      refine ⟨i, List.mem_range.mp hi, d1, d1 + 1 + 1 * j, by omega, by omega, rfl⟩
    · rintro ⟨i, hi, d1, d2, hlt, hd2, rfl⟩
      refine List.mem_flatMap.mpr ⟨i, List.mem_range.mpr hi,
        List.mem_flatMap.mpr ⟨d1, List.mem_range.mpr (by omega),
          List.mem_map.mpr ⟨d2, List.mem_range'.mpr ⟨d2 - (d1 + 1), by omega, by omega⟩, rfl⟩⟩⟩
  · rw [if_neg h]
    simp only [List.not_mem_nil, false_iff]
    rintro ⟨i, hi, d1, d2, hlt, hd2, rfl⟩
    omega

/-- Decoding the sort key of an interference gate from its operands. -/
theorem czKey_cz {nq nd i d1 d2 : Nat} (hi : i < nq) :
    czKey nq nd (Gate.cz (i + d1 * nq) (i + d2 * nq)) =
      i * nd * nd + d1 * nd + d2 := by
  have hq : 0 < nq := by omega
  show (i + d1 * nq) % nq * nd * nd + (i + d1 * nq) / nq * nd + (i + d2 * nq) / nq =
    i * nd * nd + d1 * nd + d2
  rw [Nat.add_mul_mod_self_right, Nat.mod_eq_of_lt hi,
    Nat.add_mul_div_right _ _ hq, Nat.add_mul_div_right _ _ hq,
    Nat.div_eq_of_lt hi]
  simp

/-- Lexicographic comparison of interference triples via the scalar key. -/
theorem triple_key_lt {nd i d1 d2 j e1 e2 : Nat}
    (hd1 : d1 < nd) (hd2 : d2 < nd)
    (hlex : i < j ∨ (i = j ∧ (d1 < e1 ∨ (d1 = e1 ∧ d2 < e2)))) :
    i * nd * nd + d1 * nd + d2 < j * nd * nd + e1 * nd + e2 := by
  have hdd : d1 * nd + d2 < nd * nd := by
    calc d1 * nd + d2 < d1 * nd + nd := by omega
      _ = (d1 + 1) * nd := by ring
      _ ≤ nd * nd := Nat.mul_le_mul_right nd (by omega)
  rcases hlex with hij | ⟨rfl, hrest⟩
  · have hB : i * nd * nd + nd * nd ≤ j * nd * nd := by
      calc i * nd * nd + nd * nd = (i + 1) * (nd * nd) := by ring
        _ ≤ j * (nd * nd) := Nat.mul_le_mul_right (nd * nd) (by omega)
        _ = j * nd * nd := by ring
    omega
  · rcases hrest with hde | ⟨rfl, hlt⟩
    · have hC : d1 * nd + nd ≤ e1 * nd := by
        calc d1 * nd + nd = (d1 + 1) * nd := by ring
          _ ≤ e1 * nd := Nat.mul_le_mul_right nd (by omega)
      omega
    · omega

/-! ## Orderedness of the coupling and interference stages -/

/-- The control indices of the coupling stage strictly increase along the
stage: dimensions are visited in ascending order, and sites ascend within
each dimension. -/
theorem pairwise_couplingOps (nq nd : Nat) :
    (couplingOps nq nd).Pairwise fun g g' => g.fstQubit < g'.fstQubit := by
  unfold couplingOps
  refine List.pairwise_flatMap.mpr ⟨?_, ?_⟩
  · intro d _
    refine List.pairwise_map.mpr ?_
    refine (List.sorted_lt_range (nq - 1)).imp ?_
    intro i j hij
    show i + d * nq < j + d * nq
    omega
  · refine (List.sorted_lt_range nd).imp_of_mem ?_
    intro d d' _ _ hdd' x hx y hy
    obtain ⟨i, hi, rfl⟩ := List.mem_map.mp hx
    obtain ⟨j, hj, rfl⟩ := List.mem_map.mp hy
    have hi' : i < nq - 1 := List.mem_range.mp hi
    show i + d * nq < j + d' * nq
    have hstep : d * nq + nq ≤ d' * nq := by
      calc d * nq + nq = (d + 1) * nq := by ring
        _ ≤ d' * nq := Nat.mul_le_mul_right nq (by omega)
    omega

/-- The `(site, d1, d2)` triples of the interference stage strictly increase
in lexicographic order along the stage. -/
theorem pairwise_interferenceOps (nq nd : Nat) :
    (interferenceOps nq nd).Pairwise fun g g' => czKey nq nd g < czKey nq nd g' := by
  unfold interferenceOps
  by_cases h : nd > 1
  · rw [if_pos h]
    refine List.pairwise_flatMap.mpr ⟨?_, ?_⟩
    · intro i hi
      have hi' : i < nq := List.mem_range.mp hi
      refine List.pairwise_flatMap.mpr ⟨?_, ?_⟩
      · intro d1 hd1
        have hd1' : d1 < nd := List.mem_range.mp hd1
        refine List.pairwise_map.mpr ?_
        refine (List.pairwise_lt_range' (d1 + 1) (nd - (d1 + 1)) 1 (by omega)).imp_of_mem ?_
        intro d2 d2' hd2 _ hlt
        obtain ⟨a, ha, rfl⟩ := List.mem_range'.mp hd2
        rw [czKey_cz hi', czKey_cz hi']
        exact triple_key_lt hd1' (by omega) (Or.inr ⟨rfl, Or.inr ⟨rfl, hlt⟩⟩)
      · refine (List.sorted_lt_range nd).imp_of_mem ?_
        intro d1 d1' hd1 hd1' hlt x hx y hy
        have hd1n : d1 < nd := List.mem_range.mp hd1
        obtain ⟨d2, hd2, rfl⟩ := List.mem_map.mp hx
        obtain ⟨d2', hd2', rfl⟩ := List.mem_map.mp hy
        obtain ⟨a, ha, rfl⟩ := List.mem_range'.mp hd2
        rw [czKey_cz hi', czKey_cz hi']
        exact triple_key_lt hd1n (by omega) (Or.inr ⟨rfl, Or.inl hlt⟩)
    · refine (List.sorted_lt_range nq).imp_of_mem ?_
      intro i i' hi hi' hlt x hx y hy
      have hin : i < nq := List.mem_range.mp hi
      have hin' : i' < nq := List.mem_range.mp hi'
      obtain ⟨d1, hd1, hx'⟩ := List.mem_flatMap.mp hx
      obtain ⟨d2, hd2, rfl⟩ := List.mem_map.mp hx'
      obtain ⟨d1', hd1', hy'⟩ := List.mem_flatMap.mp hy
      obtain ⟨d2', hd2', rfl⟩ := List.mem_map.mp hy'
      have hd1n : d1 < nd := List.mem_range.mp hd1
      obtain ⟨a, ha, rfl⟩ := List.mem_range'.mp hd2
      rw [czKey_cz hin, czKey_cz hin']
      exact triple_key_lt hd1n (by omega) (Or.inl hlt)
  · rw [if_neg h]
    exact List.Pairwise.nil

/-! ## Stage lengths -/

/-- The coupling stage has `num_dimensions * (num_qubits - 1)` operations. -/
theorem length_couplingOps (nq nd : Nat) :
    (couplingOps nq nd).length = nd * (nq - 1) := by
  unfold couplingOps
  rw [length_flatMap_eq]
  simp [List.map_const', List.sum_const_nat]

/-- The interference stage has `num_qubits * C(num_dimensions, 2)` operations. -/
theorem length_interferenceOps (nq nd : Nat) :
    (interferenceOps nq nd).length = nq * Nat.choose nd 2 := by
  unfold interferenceOps
  by_cases h : nd > 1
  · rw [if_pos h, length_flatMap_eq]
    have hinner : ((List.range nq).map fun i =>
        ((List.range nd).flatMap fun d1 =>
          (List.range' (d1 + 1) (nd - (d1 + 1))).map fun d2 =>
            Gate.cz (i + d1 * nq) (i + d2 * nq)).length) =
        (List.range nq).map fun _ => Nat.choose nd 2 := by
      refine List.map_congr_left fun i _ => ?_
      rw [length_flatMap_eq]
      have hmap : ((List.range nd).map fun d1 =>
          ((List.range' (d1 + 1) (nd - (d1 + 1))).map fun d2 =>
            Gate.cz (i + d1 * nq) (i + d2 * nq)).length) =
          (List.range nd).map fun k => nd - (k + 1) := by
        refine List.map_congr_left fun a _ => by simp
      rw [hmap, sum_range_sub]
    rw [hinner]
    simp [List.map_const', List.sum_const_nat]
  · rw [if_neg h]
    rw [Nat.choose_eq_zero_of_lt (by omega)]
    simp

/-! ## Claim theorems -/

/-- C1: for every `num_qubits ≥ 1` and `num_dimensions ≥ 1` the coupling
stage of the built circuit appends exactly `num_dimensions * (num_qubits - 1)`
controlled-NOT operations; its members are precisely the gates with control
`index(d, i) = i + d * num_qubits` and target `index(d, i + 1)` for `d <
num_dimensions` and `i < num_qubits - 1`; each such pair appears exactly once;
every CNOT targets the successor of its control inside the same dimension
block (so it never links qubits of different dimensions); and the controls
strictly increase along the stage (in particular sites ascend within each
dimension). -/
theorem coupling_stage_spec (nq nd : Nat) (h1 : 1 ≤ nq) (h2 : 1 ≤ nd) :
    (cxOps (create_string_vibration_circuit nq nd)).length = nd * (nq - 1) ∧
    (∀ g, g ∈ cxOps (create_string_vibration_circuit nq nd) ↔
      ∃ d, d < nd ∧ ∃ i, i < nq - 1 ∧
        g = Gate.cx (qubit_index d i nq) (qubit_index d (i + 1) nq)) ∧
    (∀ d i, d < nd → i < nq - 1 →
      (cxOps (create_string_vibration_circuit nq nd)).count
        (Gate.cx (qubit_index d i nq) (qubit_index d (i + 1) nq)) = 1) ∧
    (∀ c t, Gate.cx c t ∈ cxOps (create_string_vibration_circuit nq nd) →
      t = c + 1 ∧ c / nq = t / nq) ∧
    (cxOps (create_string_vibration_circuit nq nd)).Pairwise
      (fun g g' => g.fstQubit < g'.fstQubit) := by
  simp only [cxOps_create, qubit_index]
  have hnodup : (couplingOps nq nd).Nodup :=
    nodup_of_pairwise_key (pairwise_couplingOps nq nd)
  refine ⟨length_couplingOps nq nd, fun g => mem_couplingOps, ?_, ?_, pairwise_couplingOps nq nd⟩
  · intro d i hd hi
    exact List.count_eq_one_of_mem hnodup
      (mem_couplingOps.mpr ⟨d, hd, i, hi, rfl⟩)
  · intro c t hct
    obtain ⟨d, hd, i, hi, heq⟩ := mem_couplingOps.mp hct
    have hc : c = i + d * nq := by injection heq
    have ht : t = (i + 1) + d * nq := by injection heq
    subst hc; subst ht
    have hq : 0 < nq := by omega
    constructor
    · omega
    · rw [Nat.add_mul_div_right _ _ hq, Nat.add_mul_div_right _ _ hq,
        Nat.div_eq_of_lt (by omega), Nat.div_eq_of_lt (by omega)]

/-- C1 witness at `num_qubits = 4`, `num_dimensions = 2`. -/
theorem coupling_stage_spec_witness :
    (1 ≤ 4 ∧ 1 ≤ 2) ∧
    ((cxOps (create_string_vibration_circuit 4 2)).length = 2 * (4 - 1) ∧
    (∀ g, g ∈ cxOps (create_string_vibration_circuit 4 2) ↔
      ∃ d, d < 2 ∧ ∃ i, i < 4 - 1 ∧
        g = Gate.cx (qubit_index d i 4) (qubit_index d (i + 1) 4)) ∧
    (∀ d i, d < 2 → i < 4 - 1 →
      (cxOps (create_string_vibration_circuit 4 2)).count
        (Gate.cx (qubit_index d i 4) (qubit_index d (i + 1) 4)) = 1) ∧
    (∀ c t, Gate.cx c t ∈ cxOps (create_string_vibration_circuit 4 2) →
      t = c + 1 ∧ c / 4 = t / 4) ∧
    (cxOps (create_string_vibration_circuit 4 2)).Pairwise
      (fun g g' => g.fstQubit < g'.fstQubit)) :=
  ⟨⟨by decide, by decide⟩, coupling_stage_spec 4 2 (by decide) (by decide)⟩

/-- C2: for every `num_qubits ≥ 1` and `num_dimensions ≥ 1` the interference
stage of the built circuit has exactly `num_qubits * C(num_dimensions, 2)`
controlled-phase operations (so zero when `num_dimensions = 1`); its members
are precisely the gates with control `index(d1, i)` and target `index(d2, i)`
for a shared site `i < num_qubits` and dimensions `d1 < d2 < num_dimensions`;
each appears exactly once; and the `(site, d1, d2)` triples strictly increase
lexicographically along the stage (site loop outer, dimension-pair loop
inner). -/
theorem interference_stage_spec (nq nd : Nat) (h1 : 1 ≤ nq) (h2 : 1 ≤ nd) :
    (czOps (create_string_vibration_circuit nq nd)).length = nq * Nat.choose nd 2 ∧
    (nd = 1 → czOps (create_string_vibration_circuit nq nd) = []) ∧
    (∀ g, g ∈ czOps (create_string_vibration_circuit nq nd) ↔
      ∃ i, i < nq ∧ ∃ d1 d2, d1 < d2 ∧ d2 < nd ∧
        g = Gate.cz (qubit_index d1 i nq) (qubit_index d2 i nq)) ∧
    (∀ i d1 d2, i < nq → d1 < d2 → d2 < nd →
      (czOps (create_string_vibration_circuit nq nd)).count
        (Gate.cz (qubit_index d1 i nq) (qubit_index d2 i nq)) = 1) ∧
    (czOps (create_string_vibration_circuit nq nd)).Pairwise
      (fun g g' => czKey nq nd g < czKey nq nd g') := by
  simp only [czOps_create, qubit_index]
  have hnodup : (interferenceOps nq nd).Nodup :=
    nodup_of_pairwise_key (pairwise_interferenceOps nq nd)
  refine ⟨length_interferenceOps nq nd, ?_, fun g => mem_interferenceOps, ?_,
    pairwise_interferenceOps nq nd⟩
  · rintro rfl
    simp [interferenceOps]
  · intro i d1 d2 hi hd hd2
    exact List.count_eq_one_of_mem hnodup
      (mem_interferenceOps.mpr ⟨i, hi, d1, d2, hd, hd2, rfl⟩)

/-- C2 witness at `num_qubits = 2`, `num_dimensions = 3`. -/
theorem interference_stage_spec_witness :
    (1 ≤ 2 ∧ 1 ≤ 3) ∧
    ((czOps (create_string_vibration_circuit 2 3)).length = 2 * Nat.choose 3 2 ∧
    (3 = 1 → czOps (create_string_vibration_circuit 2 3) = []) ∧
    (∀ g, g ∈ czOps (create_string_vibration_circuit 2 3) ↔
      ∃ i, i < 2 ∧ ∃ d1 d2, d1 < d2 ∧ d2 < 3 ∧
        g = Gate.cz (qubit_index d1 i 2) (qubit_index d2 i 2)) ∧
    (∀ i d1 d2, i < 2 → d1 < d2 → d2 < 3 →
      (czOps (create_string_vibration_circuit 2 3)).count
        (Gate.cz (qubit_index d1 i 2) (qubit_index d2 i 2)) = 1) ∧
    (czOps (create_string_vibration_circuit 2 3)).Pairwise
      (fun g g' => czKey 2 3 g < czKey 2 3 g')) :=
  ⟨⟨by decide, by decide⟩, interference_stage_spec 2 3 (by decide) (by decide)⟩

/-- C3: for all `num_qubits ≥ 1` and `num_dimensions ≥ 1` the built circuit
contains exactly `Q = num_qubits * num_dimensions` measurement operations:
`Gate.measure q c` occurs in it precisely when `q < Q` and the classical slot
`c` equals the qubit index `q`, and each qubit index is measured exactly
once. -/
theorem measurement_stage_spec (nq nd : Nat) (h1 : 1 ≤ nq) (h2 : 1 ≤ nd) :
    (measureOps (create_string_vibration_circuit nq nd)).length = nq * nd ∧
    (∀ q c, Gate.measure q c ∈ measureOps (create_string_vibration_circuit nq nd) ↔
      q < nq * nd ∧ c = q) ∧
    (∀ q, q < nq * nd →
      (measureOps (create_string_vibration_circuit nq nd)).count (Gate.measure q q) = 1) := by
  simp only [measureOps_create]
  have hinj : Function.Injective fun i => Gate.measure i i := by
    intro a b hab
    simpa using hab
  have hnodup : (measurementOps nq nd).Nodup := (List.nodup_range _).map hinj
  refine ⟨by simp [measurementOps], ?_, ?_⟩
  · intro q c
    constructor
    · intro hm
      obtain ⟨i, hi, heq⟩ := List.mem_map.mp hm
      have hiq : i = q := by injection heq
      have hic : i = c := by injection heq
      subst hiq
      exact ⟨List.mem_range.mp hi, hic.symm⟩
    · rintro ⟨hq, rfl⟩
      exact List.mem_map.mpr ⟨_, List.mem_range.mpr hq, rfl⟩
  · intro q hq
    exact List.count_eq_one_of_mem hnodup
      (List.mem_map.mpr ⟨q, List.mem_range.mpr hq, rfl⟩)

/-- C3 witness at `num_qubits = 4`, `num_dimensions = 2`. -/
theorem measurement_stage_spec_witness :
    (1 ≤ 4 ∧ 1 ≤ 2) ∧
    ((measureOps (create_string_vibration_circuit 4 2)).length = 4 * 2 ∧
    (∀ q c, Gate.measure q c ∈ measureOps (create_string_vibration_circuit 4 2) ↔
      q < 4 * 2 ∧ c = q) ∧
    (∀ q, q < 4 * 2 →
      (measureOps (create_string_vibration_circuit 4 2)).count (Gate.measure q q) = 1)) :=
  ⟨⟨by decide, by decide⟩, measurement_stage_spec 4 2 (by decide) (by decide)⟩

/-- C4: for every `num_qubits ≥ 1` and `num_dimensions ≥ 1` the qubit-index
map `(dimension, site) ↦ site + dimension * num_qubits` restricted to
`site < num_qubits`, `dimension < num_dimensions` is a bijection onto
`[0, num_qubits * num_dimensions)`; in particular for `num_qubits = 4`,
`num_dimensions = 2` it maps `(0,0) ↦ 0`, `(0,3) ↦ 3`, `(1,0) ↦ 4`,
`(1,3) ↦ 7`. -/
theorem qubit_index_bijection (nq nd : Nat) (h1 : 1 ≤ nq) (h2 : 1 ≤ nd) :
    (∀ d s, d < nd → s < nq → qubit_index d s nq < nq * nd) ∧
    (∀ d s d' s', d < nd → s < nq → d' < nd → s' < nq →
      qubit_index d s nq = qubit_index d' s' nq → d = d' ∧ s = s') ∧
    (∀ q, q < nq * nd → ∃ d s, d < nd ∧ s < nq ∧ qubit_index d s nq = q) ∧
    qubit_index 0 0 4 = 0 ∧ qubit_index 0 3 4 = 3 ∧
    qubit_index 1 0 4 = 4 ∧ qubit_index 1 3 4 = 7 := by
  have hq : 0 < nq := by omega
  refine ⟨?_, ?_, ?_, by decide, by decide, by decide, by decide⟩
  · intro d s hd hs
    show s + d * nq < nq * nd
    calc s + d * nq < nq + d * nq := by omega
      _ = nq * (d + 1) := by ring
      _ ≤ nq * nd := Nat.mul_le_mul_left nq (by omega)
  · intro d s d' s' hd hs hd' hs' heq
    have hdiv : (s + d * nq) / nq = d := by
      rw [Nat.add_mul_div_right _ _ hq, Nat.div_eq_of_lt hs]
      omega
    have hdiv' : (s' + d' * nq) / nq = d' := by
      rw [Nat.add_mul_div_right _ _ hq, Nat.div_eq_of_lt hs']
      omega
    have hdd : d = d' := by
      rw [← hdiv, ← hdiv']
      exact congrArg (· / nq) heq
    refine ⟨hdd, ?_⟩
    have : s + d * nq = s' + d' * nq := heq
    subst hdd
    omega
  · intro q hqlt
    refine ⟨q / nq, q % nq, ?_, Nat.mod_lt q hq, ?_⟩
    · exact Nat.div_lt_of_lt_mul hqlt
    · show q % nq + q / nq * nq = q
      rw [Nat.mul_comm]
      exact Nat.mod_add_div q nq

/-- C4 witness at `num_qubits = 4`, `num_dimensions = 2`. -/
theorem qubit_index_bijection_witness :
    (1 ≤ 4 ∧ 1 ≤ 2) ∧
    ((∀ d s, d < 2 → s < 4 → qubit_index d s 4 < 4 * 2) ∧
    (∀ d s d' s', d < 2 → s < 4 → d' < 2 → s' < 4 →
      qubit_index d s 4 = qubit_index d' s' 4 → d = d' ∧ s = s') ∧
    (∀ q, q < 4 * 2 → ∃ d s, d < 2 ∧ s < 4 ∧ qubit_index d s 4 = q) ∧
    qubit_index 0 0 4 = 0 ∧ qubit_index 0 3 4 = 3 ∧
    qubit_index 1 0 4 = 4 ∧ qubit_index 1 3 4 = 7) :=
  ⟨⟨by decide, by decide⟩, qubit_index_bijection 4 2 (by decide) (by decide)⟩

/-- C6: for every `num_qubits ≥ 1` and `num_dimensions ≥ 1` the phase stage
of the built circuit consists of exactly one RZ rotation per qubit index
below `Q = num_qubits * num_dimensions`, every one of them with the same
fixed angle `π/4` (the rational `1/4` in units of π), not scaled by index or
dimension. -/
theorem phase_stage_spec (nq nd : Nat) (h1 : 1 ≤ nq) (h2 : 1 ≤ nd) :
    (rzOps (create_string_vibration_circuit nq nd)).length = nq * nd ∧
    (∀ g ∈ rzOps (create_string_vibration_circuit nq nd),
      ∃ q, q < nq * nd ∧ g = Gate.rz (1 / 4) q) ∧
    (∀ q, q < nq * nd →
      (rzOps (create_string_vibration_circuit nq nd)).count (Gate.rz (1 / 4) q) = 1) := by
  simp only [rzOps_create]
  have hinj : Function.Injective fun i => Gate.rz (1 / 4) i := by
    intro a b hab
    simpa using hab
  have hnodup : (phaseOps nq nd).Nodup := (List.nodup_range _).map hinj
  refine ⟨by simp [phaseOps], ?_, ?_⟩
  · intro g hg
    obtain ⟨q, hq, rfl⟩ := List.mem_map.mp hg
    exact ⟨q, List.mem_range.mp hq, rfl⟩
  · intro q hq
    exact List.count_eq_one_of_mem hnodup
      (List.mem_map.mpr ⟨q, List.mem_range.mpr hq, rfl⟩)

/-- C6 witness at `num_qubits = 4`, `num_dimensions = 2`. -/
theorem phase_stage_spec_witness :
    (1 ≤ 4 ∧ 1 ≤ 2) ∧
    ((rzOps (create_string_vibration_circuit 4 2)).length = 4 * 2 ∧
    (∀ g ∈ rzOps (create_string_vibration_circuit 4 2),
      ∃ q, q < 4 * 2 ∧ g = Gate.rz (1 / 4) q) ∧
    (∀ q, q < 4 * 2 →
      (rzOps (create_string_vibration_circuit 4 2)).count (Gate.rz (1 / 4) q) = 1)) :=
  ⟨⟨by decide, by decide⟩, phase_stage_spec 4 2 (by decide) (by decide)⟩

/-- C5: for all `num_qubits ≥ 1` and `num_dimensions ≥ 1` the operation
sequence of the built circuit is the concatenation, in this fixed order, of
the superposition (Hadamard), coupling (CNOT), phase (RZ), interference (CZ)
and measurement stages; every gate of each block has that block's kind; and
stage ranks never decrease along the sequence, so no operation of a later
stage precedes one of an earlier stage. -/
theorem stage_order_spec (nq nd : Nat) (h1 : 1 ≤ nq) (h2 : 1 ≤ nd) :
    (create_string_vibration_circuit nq nd).ops =
      superpositionOps nq nd ++ couplingOps nq nd ++ phaseOps nq nd ++
        interferenceOps nq nd ++ measurementOps nq nd ∧
    (∀ g ∈ superpositionOps nq nd, stageRank g = 0) ∧
    (∀ g ∈ couplingOps nq nd, stageRank g = 1) ∧
    (∀ g ∈ phaseOps nq nd, stageRank g = 2) ∧
    (∀ g ∈ interferenceOps nq nd, stageRank g = 3) ∧
    (∀ g ∈ measurementOps nq nd, stageRank g = 4) ∧
    (create_string_vibration_circuit nq nd).ops.Pairwise
      (fun g g' => stageRank g ≤ stageRank g') := by
  have r0 : ∀ g ∈ superpositionOps nq nd, stageRank g = 0 := fun g hg => by
    obtain ⟨q, rfl⟩ := shape_superposition nq nd g hg; rfl
  have r1 : ∀ g ∈ couplingOps nq nd, stageRank g = 1 := fun g hg => by
    obtain ⟨c, t, rfl⟩ := shape_coupling nq nd g hg; rfl
  have r2 : ∀ g ∈ phaseOps nq nd, stageRank g = 2 := fun g hg => by
    obtain ⟨q, rfl⟩ := shape_phase nq nd g hg; rfl
  have r3 : ∀ g ∈ interferenceOps nq nd, stageRank g = 3 := fun g hg => by
    obtain ⟨c, t, rfl⟩ := shape_interference nq nd g hg; rfl
  have r4 : ∀ g ∈ measurementOps nq nd, stageRank g = 4 := fun g hg => by
    obtain ⟨q, rfl⟩ := shape_measurement nq nd g hg; rfl
  refine ⟨rfl, r0, r1, r2, r3, r4, ?_⟩
  show (superpositionOps nq nd ++ couplingOps nq nd ++ phaseOps nq nd ++
      interferenceOps nq nd ++ measurementOps nq nd).Pairwise
    (fun g g' => stageRank g ≤ stageRank g')
  have pwOf : ∀ (l : List Gate) (k : Nat), (∀ g ∈ l, stageRank g = k) →
      l.Pairwise (fun g g' => stageRank g ≤ stageRank g') := fun l k hk =>
    pairwise_of_forall_mem fun a ha b hb => by rw [hk a ha, hk b hb]
  have crossOf : ∀ (l l' : List Gate) (k k' : Nat), k ≤ k' →
      (∀ g ∈ l, stageRank g = k) → (∀ g ∈ l', stageRank g = k') →
      ∀ a ∈ l, ∀ b ∈ l', stageRank a ≤ stageRank b := by
    intro l l' k k' hkk hk hk' a ha b hb
    rw [hk a ha, hk' b hb]
    exact hkk
  refine List.pairwise_append.mpr ⟨List.pairwise_append.mpr
    ⟨List.pairwise_append.mpr ⟨List.pairwise_append.mpr
      ⟨pwOf _ 0 r0, pwOf _ 1 r1, crossOf _ _ 0 1 (by omega) r0 r1⟩,
      pwOf _ 2 r2, ?_⟩, pwOf _ 3 r3, ?_⟩, pwOf _ 4 r4, ?_⟩
  · intro a ha b hb
    rcases List.mem_append.mp ha with h | h
    · exact crossOf _ _ 0 2 (by omega) r0 r2 a h b hb
    · exact crossOf _ _ 1 2 (by omega) r1 r2 a h b hb
  · intro a ha b hb
    rcases List.mem_append.mp ha with h | h
    · rcases List.mem_append.mp h with h' | h'
      · exact crossOf _ _ 0 3 (by omega) r0 r3 a h' b hb
      · exact crossOf _ _ 1 3 (by omega) r1 r3 a h' b hb
    · exact crossOf _ _ 2 3 (by omega) r2 r3 a h b hb
  · intro a ha b hb
    rcases List.mem_append.mp ha with h | h
    · rcases List.mem_append.mp h with h' | h'
      · rcases List.mem_append.mp h' with h'' | h''
        · exact crossOf _ _ 0 4 (by omega) r0 r4 a h'' b hb
        · exact crossOf _ _ 1 4 (by omega) r1 r4 a h'' b hb
      · exact crossOf _ _ 2 4 (by omega) r2 r4 a h' b hb
    · exact crossOf _ _ 3 4 (by omega) r3 r4 a h b hb

/-- C5 witness at `num_qubits = 4`, `num_dimensions = 2`. -/
theorem stage_order_spec_witness :
    (1 ≤ 4 ∧ 1 ≤ 2) ∧
    ((create_string_vibration_circuit 4 2).ops =
      superpositionOps 4 2 ++ couplingOps 4 2 ++ phaseOps 4 2 ++
        interferenceOps 4 2 ++ measurementOps 4 2 ∧
    (∀ g ∈ superpositionOps 4 2, stageRank g = 0) ∧
    (∀ g ∈ couplingOps 4 2, stageRank g = 1) ∧
    (∀ g ∈ phaseOps 4 2, stageRank g = 2) ∧
    (∀ g ∈ interferenceOps 4 2, stageRank g = 3) ∧
    (∀ g ∈ measurementOps 4 2, stageRank g = 4) ∧
    (create_string_vibration_circuit 4 2).ops.Pairwise
      (fun g g' => stageRank g ≤ stageRank g')) :=
  ⟨⟨by decide, by decide⟩, stage_order_spec 4 2 (by decide) (by decide)⟩

/-- C7 counterexample: the builder performs no argument validation.  Called
with `num_qubits = 0` it does not fail: it returns a completed (empty)
`CircuitSpec`, contradicting the claim that it fails with `InvalidArgument`
and returns no circuit. -/
theorem create_zero_qubits_returns_circuit :
    create_string_vibration_circuit 0 2 = ⟨0, 0, []⟩ := by
  decide

/-- C7 amended: `create_string_vibration_circuit` called with
`num_qubits = 0` or `num_dimensions = 0` raises nothing and silently returns
the empty circuit (zero-size registers, no operations). -/
theorem create_degenerate_args_no_failure (nq nd : Nat) (h : nq = 0 ∨ nd = 0) :
    create_string_vibration_circuit nq nd = ⟨0, 0, []⟩ := by
  have hcoup : couplingOps nq nd = [] := List.length_eq_zero.mp
    (by rw [length_couplingOps]; rcases h with rfl | rfl <;> simp)
  have hint : interferenceOps nq nd = [] := List.length_eq_zero.mp
    (by rw [length_interferenceOps]; rcases h with rfl | rfl <;> simp)
  have hQ : nq * nd = 0 := by rcases h with rfl | rfl <;> simp
  unfold create_string_vibration_circuit superpositionOps phaseOps measurementOps
  rw [hcoup, hint, hQ]
  simp

/-- C7 amended-claim witness at `num_qubits = 0`, `num_dimensions = 2`. -/
theorem create_degenerate_args_no_failure_witness :
    (0 = 0 ∨ 2 = 0) ∧ create_string_vibration_circuit 0 2 = ⟨0, 0, []⟩ :=
  ⟨Or.inl rfl, create_degenerate_args_no_failure 0 2 (Or.inl rfl)⟩

/-- C8: `analyze_results` applied to an empty outcome distribution raises
(Python `max` on an empty sequence raises `ValueError`) instead of returning
fabricated placeholder values. -/
theorem analyze_results_empty_raises :
    analyze_results [] = Except.error AnalyzeError.emptyDistribution :=
  rfl

/-! ## Maximum-of-counts helper lemmas for the analyzer -/

/-- Every entry is bounded by the folded maximum. -/
theorem le_foldr_max (l : List Nat) : ∀ x ∈ l, x ≤ l.foldr max 0 := by
  induction l with
  | nil => simp
  | cons a as ih =>
    intro x hx
    rcases List.mem_cons.mp hx with rfl | hx'
    · exact Nat.le_max_left _ _
    · exact le_trans (ih x hx') (Nat.le_max_right _ _)

/-- The folded maximum is bounded by the sum (over `Nat`). -/
theorem foldr_max_le_sum (l : List Nat) : l.foldr max 0 ≤ l.sum := by
  induction l with
  | nil => simp
  | cons a as ih =>
    simp only [List.foldr_cons, List.sum_cons]
    exact max_le (by omega) (by omega)

/-- A positive sum forces a positive folded maximum. -/
theorem foldr_max_pos {l : List Nat} (h : 0 < l.sum) : 0 < l.foldr max 0 := by
  induction l with
  | nil => simp at h
  | cons a as ih =>
    simp only [List.sum_cons] at h
    simp only [List.foldr_cons]
    rcases Nat.eq_zero_or_pos a with rfl | ha
    · simp only [Nat.zero_add] at h
      exact lt_of_lt_of_le (ih h) (Nat.le_max_right _ _)
    · exact lt_of_lt_of_le ha (Nat.le_max_left _ _)

/-- `analyze_results` on a nonempty distribution with nonzero total returns
the dict built from the total, the key count, the first maximal key, and the
maximum count divided by the total. -/
theorem analyze_results_cons (x : String × Nat) (xs : List (String × Nat))
    (hpos : (List.map Prod.snd (x :: xs)).sum ≠ 0) :
    analyze_results (x :: xs) = Except.ok
      ⟨(List.map Prod.snd (x :: xs)).sum, (x :: xs).length,
       (xs.foldl (fun acc y => if acc.2 < y.2 then y else acc) x).1,
       (maxValue (x :: xs) : ℚ) / (((List.map Prod.snd (x :: xs)).sum : Nat) : ℚ)⟩ := by
  simp only [analyze_results, maxByValue]
  rw [if_neg hpos]

/-- C9: on a nonempty distribution with positive total, `analyze_results`
succeeds with `total_measurements` the sum of the counts, `unique_states`
the number of entries, and `highest_probability` equal to the maximum count
divided by the total, a value in `(0, 1]`; on `{"00": 700, "11": 300}` it
returns total 1000, 2 unique states, most common state `"00"` and highest
probability `0.7`. -/
theorem analyze_results_spec (counts : List (String × Nat))
    (hne : counts ≠ []) (hpos : 0 < (counts.map Prod.snd).sum) :
    (∃ a, analyze_results counts = Except.ok a ∧
      a.total_measurements = (counts.map Prod.snd).sum ∧
      a.unique_states = counts.length ∧
      a.highest_probability =
        (maxValue counts : ℚ) / (((counts.map Prod.snd).sum : Nat) : ℚ) ∧
      0 < a.highest_probability ∧ a.highest_probability ≤ 1) ∧
    analyze_results [("00", 700), ("11", 300)] =
      Except.ok ⟨1000, 2, "00", 7 / 10⟩ := by
  constructor
  · obtain ⟨x, xs, rfl⟩ := List.exists_cons_of_ne_nil hne
    refine ⟨_, analyze_results_cons x xs (by omega), rfl, rfl, rfl, ?_, ?_⟩
    · exact div_pos (Nat.cast_pos.mpr (foldr_max_pos hpos)) (Nat.cast_pos.mpr hpos)
    · rw [div_le_one (Nat.cast_pos.mpr hpos)]
      exact Nat.cast_le.mpr (foldr_max_le_sum _)
  · simp only [analyze_results, maxByValue, maxValue]
    norm_num

/-- C9 witness at the distribution `{"00": 700, "11": 300}`. -/
theorem analyze_results_spec_witness :
    (([("00", 700), ("11", 300)] : List (String × Nat)) ≠ [] ∧
      0 < (([("00", 700), ("11", 300)] : List (String × Nat)).map Prod.snd).sum) ∧
    ((∃ a, analyze_results [("00", 700), ("11", 300)] = Except.ok a ∧
      a.total_measurements =
        (([("00", 700), ("11", 300)] : List (String × Nat)).map Prod.snd).sum ∧
      a.unique_states = ([("00", 700), ("11", 300)] : List (String × Nat)).length ∧
      a.highest_probability = (maxValue [("00", 700), ("11", 300)] : ℚ) /
        (((([("00", 700), ("11", 300)] : List (String × Nat)).map Prod.snd).sum : Nat) : ℚ) ∧
      0 < a.highest_probability ∧ a.highest_probability ≤ 1) ∧
    analyze_results [("00", 700), ("11", 300)] =
      Except.ok ⟨1000, 2, "00", 7 / 10⟩) :=
  ⟨⟨List.cons_ne_nil _ _, by decide⟩,
    analyze_results_spec [("00", 700), ("11", 300)] (List.cons_ne_nil _ _) (by decide)⟩

/-- C10: `simulate_string_theory` takes no tuning parameters: whatever the
backend, it always invokes it on the circuit built with `num_qubits = 4`,
`num_dimensions = 2` and requests exactly `1000` shots. -/
theorem simulate_string_theory_spec :
    ∀ run : CircuitSpec → Nat → List (String × Nat),
      simulate_string_theory run = run (create_string_vibration_circuit 4 2) 1000 :=
  fun _ => rfl

end StringSim
